import Mathlib

/-!
Verification of the asynchronous capnproto stream-framing codec
(capnp-futures/src/serialize.rs).

The code is shallowly embedded:

* Bytes are `Nat` values (real streams carry values < 256; theorems add this
  bound where it matters).
* A message word (the 8-byte `Word` unit) is modelled as its little-endian
  value, a `Nat` (< 2^64 for real words).
* The asynchronous byte source (`AsyncRead`) is a `Source`: the remaining
  byte stream plus a schedule of chunk sizes.  Each `read` call delivers at
  most the scheduled number of bytes, so the schedule models arbitrary
  splitting of the stream into successful poll results.  A `Poll::Pending`
  result makes the executor re-poll and is invisible to the embedded logic,
  so it needs no representation.  `read` returns zero bytes exactly when the
  stream is exhausted, which is the `AsyncRead` end-of-stream convention.
* `futures::AsyncReadExt::read_exact` loops until the buffer is full and
  fails if a read returns zero bytes first.  It is embedded as
  `Source.readExactAux` with an explicit structural fuel equal to the
  requested byte count; every loop iteration consumes at least one byte, so
  the fuel never runs out on the paths the loop can actually take.
* The asynchronous byte sink (`AsyncWrite`) is a `Sink`: the bytes accepted
  so far plus a schedule of per-poll acceptance caps.
  `futures::AsyncWriteExt::write_all` retries the unwritten suffix until
  everything is accepted; it is embedded as `Sink.writeAllAux`, again with
  structural fuel.
* The error strings produced by `capnp::Error::failed` are abstracted into
  the error-kind enumeration `Error`, matching the taxonomy of the spec.
-/

/-- Error kinds raised by the codec, abstracting the `capnp::Error::failed`
messages of the source: too many segments, too few segments, message too
large, and truncation or any other underlying I/O failure. -/
inductive Error where
  | TooManySegments
  | TooFewSegments
  | MessageTooLarge
  | Truncated
deriving DecidableEq, Repr

/-- Little-endian value of a byte list; on a 4-byte list with entries < 256
this is `u32::from_le_bytes`, on an 8-byte list `u64::from_le_bytes`. -/
def le_decode (l : List Nat) : Nat := l.foldr (fun b acc => b + 256 * acc) 0

/-- Embeds `(n as u32).to_le_bytes()`: truncate to 32 bits, then the four
little-endian bytes. -/
def u32_to_le_bytes (n : Nat) : List Nat :=
  [n % 4294967296 % 256,
   n % 4294967296 / 256 % 256,
   n % 4294967296 / 65536 % 256,
   n % 4294967296 / 16777216 % 256]

/-- The eight little-endian bytes of one message word (`capnp::Word` is an
opaque 8-byte unit; we model a word by its little-endian value). -/
def word_to_bytes (w : Nat) : List Nat :=
  [w % 256,
   w / 256 % 256,
   w / 65536 % 256,
   w / 16777216 % 256,
   w / 4294967296 % 256,
   w / 1099511627776 % 256,
   w / 281474976710656 % 256,
   w / 72057594037927936 % 256]

/-- `Word::words_to_bytes` on a segment: concatenation of the words in
little-endian byte order. -/
def words_to_bytes (ws : List Nat) : List Nat :=
  (ws.map word_to_bytes).flatten

/-- Reinterpret a byte buffer as words (the read side fills a
`Vec<Word>` directly from the byte stream); trailing bytes that do not fill
a whole word are dropped (never happens on the paths the codec takes, where
the buffer length is `total_words * 8`). -/
def bytes_to_words : List Nat → List Nat
  | b0 :: b1 :: b2 :: b3 :: b4 :: b5 :: b6 :: b7 :: rest =>
      le_decode [b0, b1, b2, b3, b4, b5, b6, b7] :: bytes_to_words rest
  | _ => []

/-- An asynchronous byte source: the bytes still to be delivered, plus a
schedule of chunk sizes modelling how the underlying I/O primitive splits
the stream across successful poll results. -/
structure Source where
  data : List Nat
  chunks : List Nat
deriving DecidableEq, Repr

/-- One successful `AsyncRead::poll_read` requesting `n` bytes: delivers at
most `n` bytes, at most what the schedule allows (at least one byte per poll
while data remains, as for any real reader), and at most what remains.
Returns zero bytes exactly when the stream is exhausted. -/
def Source.read (s : Source) (n : Nat) : List Nat × Source :=
  let cap := match s.chunks with
    | [] => n
    | c :: _ => max c 1
  let k := min n (min cap s.data.length)
  (s.data.take k, ⟨s.data.drop k, s.chunks.tail⟩)

/-- Loop body of `futures::AsyncReadExt::read_exact`: keep reading until `n`
bytes are gathered; a zero-byte read first is an unexpected end of file.
The first argument is structural fuel; the codec always supplies fuel `n`,
which suffices because every iteration consumes at least one byte. -/
def Source.readExactAux : Nat → Source → Nat → Except Error (List Nat × Source)
  | _, s, 0 => .ok ([], s)
  | 0, _, _ + 1 => .error .Truncated
  | fuel + 1, s, n + 1 =>
      let r := s.read (n + 1)
      if r.1.length = 0 then .error .Truncated
      else
        match Source.readExactAux fuel r.2 (n + 1 - r.1.length) with
        | .error e => .error e
        | .ok (rest, s2) => .ok (r.1 ++ rest, s2)

/-- `futures::AsyncReadExt::read_exact` for `n` bytes. -/
def Source.readExact (s : Source) (n : Nat) : Except Error (List Nat × Source) :=
  Source.readExactAux n s n

/-- The opening block of `read_segment_table` (serialize.rs lines 62-70):
read up to 8 bytes; zero bytes on the very first attempt is a clean end of
stream (`none`); otherwise read the remainder of the first word to
completion. -/
def read_first_word (s : Source) : Except Error (Option (List Nat × Source)) :=
  let r := s.read 8
  if r.1.length = 0 then .ok none
  else if r.1.length < 8 then
    match r.2.readExact (8 - r.1.length) with
    | .error e => .error e
    | .ok (rest, s2) => .ok (some (r.1 ++ rest, s2))
  else .ok (some (r.1, r.2))

/-- `parse_segment_table_first` (serialize.rs lines 135-146): bytes 0-3 are
the little-endian segment count minus one (plus one with 32-bit wrapping),
bytes 4-7 the first segment length in words. -/
def parse_segment_table_first (buf : List Nat) : Except Error (Nat × Nat) :=
  let segment_count := (le_decode (buf.take 4) + 1) % 4294967296
  if 512 ≤ segment_count then .error .TooManySegments
  else if segment_count = 0 then .error .TooFewSegments
  else .ok (segment_count, le_decode ((buf.drop 4).take 4))

/-- Embeds the expression `n & !1` of the source (clear the lowest bit):
round down to an even number. -/
def round_down_even (n : Nat) : Nat := n - n % 2

/-- The segment-slice loop of `read_segment_table` (serialize.rs lines
81-88 and 92-98): decode `k` consecutive little-endian u32 lengths from
`buf` and push `(running_total, running_total + len)` ranges. -/
def push_segment_slices (buf : List Nat) (k : Nat) (total_words : Nat) :
    List (Nat × Nat) × Nat :=
  match k with
  | 0 => ([], total_words)
  | k + 1 =>
      let segment_len := le_decode (buf.take 4)
      let r := push_segment_slices (buf.drop 4) k (total_words + segment_len)
      ((total_words, total_words + segment_len) :: r.1, r.2)

/-- `read_segment_table` (serialize.rs lines 57-112).  Returns `none` on a
clean end of stream, otherwise the total word count, the segment slices and
the source positioned after the header.  The traversal-limit check runs
before any payload is touched. -/
def read_segment_table (s : Source) (limit : Nat) :
    Except Error (Option (Nat × List (Nat × Nat) × Source)) :=
  match read_first_word s with
  | .error e => .error e
  | .ok none => .ok none
  | .ok (some (buf, s2)) =>
    match parse_segment_table_first buf with
    | .error e => .error e
    | .ok (segment_count, first_segment_length) =>
      let rest : Except Error (List Nat × Source) :=
        if 1 < segment_count then
          if segment_count < 4 then
            -- small enough that the source reuses its existing 8-byte buffer
            s2.readExact 8
          else
            s2.readExact (round_down_even segment_count * 4)
        else .ok ([], s2)
      match rest with
      | .error e => .error e
      | .ok (sizes, s3) =>
        let r := push_segment_slices sizes (segment_count - 1) first_segment_length
        let total_words := r.2
        let segment_slices := (0, first_segment_length) :: r.1
        if limit < total_words then .error .MessageTooLarge
        else .ok (some (total_words, segment_slices, s3))

/-- `OwnedSegments`: one flat buffer of words plus `(start, end)` word
ranges, one per segment. -/
structure OwnedSegments where
  segment_slices : List (Nat × Nat)
  owned_space : List Nat
deriving DecidableEq, Repr

/-- The Rust slice expression `&v[a..b]`. -/
def rust_slice (v : List Nat) (a b : Nat) : List Nat :=
  (v.drop a).take (b - a)

/-- `OwnedSegments::get_segment` (serialize.rs lines 36-43). -/
def OwnedSegments.get_segment (o : OwnedSegments) (id : Nat) : Option (List Nat) :=
  if id < o.segment_slices.length then
    let p := o.segment_slices.getD id (0, 0)
    some (rust_slice o.owned_space p.1 p.2)
  else none

/-- Observation function for stating round-trip claims: the list of
segments held by an `OwnedSegments`, in order. -/
def OwnedSegments.segments_list (o : OwnedSegments) : List (List Nat) :=
  o.segment_slices.map (fun p => rust_slice o.owned_space p.1 p.2)

/-- `read_segments` (serialize.rs lines 115-126): allocate `total_words`
words and fill them from the source with one read-to-completion. -/
def read_segments (s : Source) (total_words : Nat)
    (segment_slices : List (Nat × Nat)) : Except Error OwnedSegments :=
  match s.readExact (total_words * 8) with
  | .error e => .error e
  | .ok (bytes, _) => .ok ⟨segment_slices, bytes_to_words bytes⟩

/-- `read_message` (serialize.rs lines 47-55). -/
def read_message (s : Source) (limit : Nat) :
    Except Error (Option OwnedSegments) :=
  match read_segment_table s limit with
  | .error e => .error e
  | .ok none => .ok none
  | .ok (some (total_words, segment_slices, s2)) =>
    match read_segments s2 total_words segment_slices with
    | .error e => .error e
    | .ok r => .ok (some r)

/-- An asynchronous byte sink: the bytes accepted so far, plus a schedule of
per-poll acceptance caps modelling partial writes. -/
structure Sink where
  data : List Nat
  chunks : List Nat
deriving DecidableEq, Repr

/-- One successful `AsyncWrite::poll_write`: accepts at most what the
schedule allows (at least one byte per poll, as for any real writer). -/
def Sink.write (k : Sink) (b : List Nat) : Nat × Sink :=
  let cap := match k.chunks with
    | [] => b.length
    | c :: _ => max c 1
  let n := min b.length cap
  (n, ⟨k.data ++ b.take n, k.chunks.tail⟩)

/-- Loop body of `futures::AsyncWriteExt::write_all`: keep offering the
unwritten suffix until everything is accepted.  Structural fuel as for
`Source.readExactAux`; the codec supplies fuel `b.length`, which suffices
because every poll accepts at least one byte. -/
def Sink.writeAllAux : Nat → Sink → List Nat → Sink
  | _, k, [] => k
  | 0, k, _ => k
  | fuel + 1, k, b =>
      let r := k.write b
      Sink.writeAllAux fuel r.2 (b.drop r.1)

/-- `futures::AsyncWriteExt::write_all`. -/
def Sink.write_all (k : Sink) (b : List Nat) : Sink :=
  Sink.writeAllAux b.length k b

/-- The first header word written by `write_segment_table` (serialize.rs
lines 194-197): segment count minus one, then the first segment length,
both as little-endian u32. -/
def segment_table_first_word (segments : List (List Nat)) : List Nat :=
  u32_to_le_bytes (segments.length - 1) ++
    u32_to_le_bytes (segments.headD []).length

/-- The remaining header bytes written by `write_segment_table` for more
than one segment (serialize.rs lines 199-220): the lengths of segments
1.. as little-endian u32, with one zero padding word when the entry count
leaves the buffer half-filled. -/
def segment_table_rest (segments : List (List Nat)) : List Nat :=
  let segment_count := segments.length
  if segment_count < 4 then
    let lens := ((segments.drop 1).map (fun s => u32_to_le_bytes s.length)).flatten
    if segment_count = 2 then lens ++ [0, 0, 0, 0] else lens
  else
    let lens := ((segments.drop 1).map (fun s => u32_to_le_bytes s.length)).flatten
    if segment_count % 2 = 0 then lens ++ [0, 0, 0, 0] else lens

/-- All bytes produced by `write_segment_table` (serialize.rs lines
188-222). -/
def write_segment_table (segments : List (List Nat)) : List Nat :=
  segment_table_first_word segments ++
    (if 1 < segments.length then segment_table_rest segments else [])

/-- `write_message` (serialize.rs lines 179-186 together with
`write_segments`, lines 225-232): write the segment table, then each
segment in order, each via `write_all`. -/
def write_message (k : Sink) (segments : List (List Nat)) : Sink :=
  let k1 := k.write_all (segment_table_first_word segments)
  let k2 := if 1 < segments.length then k1.write_all (segment_table_rest segments)
            else k1
  segments.foldl (fun k s => k.write_all (words_to_bytes s)) k2

/-- Total declared word count of a segment list. -/
def total_word_count (segments : List (List Nat)) : Nat :=
  (segments.map List.length).sum

/-- Spec-side formulation of the decoded offset list: ranges by running
total starting at `start`. -/
def expected_slices (start : Nat) : List Nat → List (Nat × Nat)
  | [] => []
  | l :: ls => (start, start + l) :: expected_slices (start + l) ls

/-- Spec-side formulation of the offset invariant of section 3 of the spec:
starting at `start`, the ranges are contiguous (each start is the previous
end), each range is non-decreasing, and the final end is `total`. -/
def runs_from : Nat → List (Nat × Nat) → Nat → Bool
  | start, [], total => decide (start = total)
  | start, (a, b) :: rest, total =>
      decide (a = start) && decide (a ≤ b) && runs_from b rest total

/-! ### Byte encoding lemmas -/

theorem u32_to_le_bytes_length (n : Nat) : (u32_to_le_bytes n).length = 4 := rfl

theorem word_to_bytes_length (w : Nat) : (word_to_bytes w).length = 8 := rfl

theorem le_decode_u32_to_le_bytes (n : Nat) :
    le_decode (u32_to_le_bytes n) = n % 4294967296 := by
  simp only [u32_to_le_bytes, le_decode, List.foldr]
  omega

theorem le_decode_word_to_bytes (w : Nat) :
    le_decode (word_to_bytes w) = w % 18446744073709551616 := by
  simp only [word_to_bytes, le_decode, List.foldr]
  omega

theorem words_to_bytes_nil : words_to_bytes [] = [] := rfl

theorem words_to_bytes_cons (w : Nat) (ws : List Nat) :
    words_to_bytes (w :: ws) = word_to_bytes w ++ words_to_bytes ws := by
  simp [words_to_bytes]

theorem words_to_bytes_length (ws : List Nat) :
    (words_to_bytes ws).length = 8 * ws.length := by
  induction ws with
  | nil => rfl
  | cons w ws ih =>
    rw [words_to_bytes_cons, List.length_append, word_to_bytes_length, ih,
      List.length_cons]
    omega

theorem bytes_to_words_words_to_bytes (ws rest : List Nat)
    (h : ∀ w ∈ ws, w < 18446744073709551616) :
    bytes_to_words (words_to_bytes ws ++ rest) = ws ++ bytes_to_words rest := by
  induction ws with
  | nil => simp [words_to_bytes]
  | cons w ws ih =>
    have hw : w % 18446744073709551616 = w :=
      Nat.mod_eq_of_lt (h w (by simp))
    rw [words_to_bytes_cons, List.append_assoc]
    simp only [word_to_bytes, List.cons_append, List.nil_append, bytes_to_words]
    rw [show le_decode [w % 256, w / 256 % 256, w / 65536 % 256, w / 16777216 % 256,
          w / 4294967296 % 256, w / 1099511627776 % 256, w / 281474976710656 % 256,
          w / 72057594037927936 % 256] = le_decode (word_to_bytes w) from rfl,
        le_decode_word_to_bytes, hw]
    exact congrArg (w :: ·) (ih (fun x hmem => h x (by simp [hmem])))

theorem cons8_of_length (b : List Nat) (h : 8 ≤ b.length) :
    ∃ b0 b1 b2 b3 b4 b5 b6 b7 rest,
      b = b0 :: b1 :: b2 :: b3 :: b4 :: b5 :: b6 :: b7 :: rest := by
  rcases b with _ | ⟨b0, _ | ⟨b1, _ | ⟨b2, _ | ⟨b3, _ | ⟨b4, _ | ⟨b5, _ | ⟨b6, _ | ⟨b7, rest⟩⟩⟩⟩⟩⟩⟩⟩
  all_goals simp only [List.length_nil, List.length_cons] at h
  all_goals first
    | omega
    | exact ⟨b0, b1, b2, b3, b4, b5, b6, b7, rest, rfl⟩

theorem bytes_to_words_length_mul (n : Nat) : ∀ b : List Nat, b.length = n * 8 →
    (bytes_to_words b).length = n := by
  induction n with
  | zero =>
    intro b hb
    have hnil : b = [] := List.eq_nil_of_length_eq_zero (by omega)
    subst hnil
    rfl
  | succ n ih =>
    intro b hb
    obtain ⟨b0, b1, b2, b3, b4, b5, b6, b7, rest, rfl⟩ :=
      cons8_of_length b (by omega)
    simp only [bytes_to_words, List.length_cons]
    rw [ih rest (by simp only [List.length_cons] at hb; omega)]

/-! ### Source and read lemmas -/

theorem Source.read_spec (s : Source) (n : Nat) :
    ∃ k, s.read n = (s.data.take k, ⟨s.data.drop k, s.chunks.tail⟩) ∧
      k ≤ n ∧ k ≤ s.data.length ∧ (1 ≤ n → s.data ≠ [] → 1 ≤ k) := by
  cases hch : s.chunks with
  | nil =>
    refine ⟨min n (min n s.data.length), ?_, by omega, by omega, ?_⟩
    · simp only [Source.read, hch, List.tail_nil]
    · intro hn hne
      have := List.length_pos.mpr hne
      omega
  | cons c ch =>
    refine ⟨min n (min (max c 1) s.data.length), ?_, by omega, by omega, ?_⟩
    · simp only [Source.read, hch, List.tail_cons]
    · intro hn hne
      have := List.length_pos.mpr hne
      omega

theorem Source.readExactAux_ok (fuel : Nat) : ∀ (s : Source) (n : Nat),
    n ≤ fuel → n ≤ s.data.length →
    ∃ ch2, Source.readExactAux fuel s n = .ok (s.data.take n, ⟨s.data.drop n, ch2⟩) := by
  induction fuel with
  | zero =>
    intro s n hf _
    match n, hf with
    | 0, _ => exact ⟨s.chunks, rfl⟩
  | succ fuel ih =>
    intro s n hf hd
    match n with
    | 0 => exact ⟨s.chunks, rfl⟩
    | n + 1 =>
      obtain ⟨k, hr, hkn, hkd, hk1⟩ := Source.read_spec s (n + 1)
      have hne : s.data ≠ [] := by
        intro hnil
        rw [hnil] at hd
        simp at hd
      have hk1 : 1 ≤ k := hk1 (by omega) hne
      have hlen : (s.data.take k).length = k := by
        rw [List.length_take]; omega
      obtain ⟨ch2, hrec⟩ := ih ⟨s.data.drop k, s.chunks.tail⟩ (n + 1 - k)
        (by omega) (by dsimp only; rw [List.length_drop]; omega)
      refine ⟨ch2, ?_⟩
      simp only [Source.readExactAux, hr, hlen]
      rw [if_neg (by omega), hrec]
      dsimp only
      have h1 : s.data.take k ++ (s.data.drop k).take (n + 1 - k) = s.data.take (n + 1) := by
        rw [← List.take_add]
        congr 1
        omega
      have h2 : (s.data.drop k).drop (n + 1 - k) = s.data.drop (n + 1) := by
        rw [List.drop_drop]
        congr 1
        omega
      rw [h1, h2]

theorem Source.readExactAux_truncated (fuel : Nat) : ∀ (s : Source) (n : Nat),
    n ≤ fuel → s.data.length < n →
    Source.readExactAux fuel s n = .error .Truncated := by
  induction fuel with
  | zero =>
    intro s n hf hd
    match n, hf with
    | 0, _ => omega
  | succ fuel ih =>
    intro s n hf hd
    match n with
    | 0 => omega
    | n + 1 =>
      obtain ⟨k, hr, hkn, hkd, hk1⟩ := Source.read_spec s (n + 1)
      have hlen : (s.data.take k).length = k := by
        rw [List.length_take]; omega
      by_cases hnil : s.data = []
      · simp only [Source.readExactAux, hr, hlen]
        rw [if_pos (by rw [hnil] at hkd; simp at hkd; omega)]
      · have hk1 : 1 ≤ k := hk1 (by omega) hnil
        simp only [Source.readExactAux, hr, hlen]
        rw [if_neg (by omega)]
        rw [ih ⟨s.data.drop k, s.chunks.tail⟩ (n + 1 - k) (by omega)
          (by dsimp only; rw [List.length_drop]; omega)]

theorem Source.readExactAux_length (fuel : Nat) : ∀ (s : Source) (n : Nat)
    (bytes : List Nat) (s2 : Source),
    Source.readExactAux fuel s n = .ok (bytes, s2) → bytes.length = n := by
  induction fuel with
  | zero =>
    intro s n bytes s2 h
    match n with
    | 0 =>
      simp only [Source.readExactAux] at h
      injection h with h
      injection h with h1 _
      rw [← h1]
      rfl
    | n + 1 =>
      simp only [Source.readExactAux] at h
      exact absurd h (by simp)
  | succ fuel ih =>
    intro s n bytes s2 h
    match n with
    | 0 =>
      simp only [Source.readExactAux] at h
      injection h with h
      injection h with h1 _
      rw [← h1]
      rfl
    | n + 1 =>
      obtain ⟨k, hr, hkn, hkd, _⟩ := Source.read_spec s (n + 1)
      have hlen : (s.data.take k).length = k := by
        rw [List.length_take]; omega
      simp only [Source.readExactAux, hr, hlen] at h
      by_cases hk0 : k = 0
      · rw [if_pos (by omega)] at h
        exact absurd h (by simp)
      · rw [if_neg (by omega)] at h
        cases hrec : Source.readExactAux fuel ⟨s.data.drop k, s.chunks.tail⟩ (n + 1 - k) with
        | error e =>
          rw [hrec] at h
          exact absurd h (by simp)
        | ok p =>
          obtain ⟨rest, s3⟩ := p
          rw [hrec] at h
          injection h with h
          injection h with h1 _
          have hr2 := ih _ _ _ _ hrec
          rw [← h1]
          simp only [List.length_append, hlen, hr2]
          omega

theorem Source.readExact_ok (s : Source) (n : Nat) (h : n ≤ s.data.length) :
    ∃ ch2, s.readExact n = .ok (s.data.take n, ⟨s.data.drop n, ch2⟩) :=
  Source.readExactAux_ok n s n (Nat.le_refl n) h

theorem Source.readExact_truncated (s : Source) (n : Nat) (h : s.data.length < n) :
    s.readExact n = .error .Truncated :=
  Source.readExactAux_truncated n s n (Nat.le_refl n) h

theorem Source.readExact_length (s : Source) (n : Nat) (bytes : List Nat)
    (s2 : Source) (h : s.readExact n = .ok (bytes, s2)) : bytes.length = n :=
  Source.readExactAux_length n s n bytes s2 h

/-! ### First-word reading lemmas -/

theorem read_first_word_ok (w0 rest ch : List Nat) (hw : w0.length = 8) :
    ∃ ch2, read_first_word ⟨w0 ++ rest, ch⟩ = .ok (some (w0, ⟨rest, ch2⟩)) := by
  obtain ⟨k, hr, hk8, hkd, hk1⟩ := Source.read_spec ⟨w0 ++ rest, ch⟩ 8
  dsimp only at hr hkd hk1
  have hdlen : (w0 ++ rest).length = 8 + rest.length := by
    rw [List.length_append, hw]
  have hk1 : 1 ≤ k := hk1 (by omega) (by
    intro hnil
    rw [hnil] at hdlen
    simp only [List.length_nil] at hdlen
    omega)
  have hlen : ((w0 ++ rest).take k).length = k := by
    rw [List.length_take]; omega
  have htake8 : (w0 ++ rest).take 8 = w0 := by
    rw [← hw, List.take_left]
  have hdrop8 : (w0 ++ rest).drop 8 = rest := by
    rw [← hw, List.drop_left]
  by_cases hk : k = 8
  · refine ⟨ch.tail, ?_⟩
    simp only [read_first_word, hr, hlen]
    rw [if_neg (by omega), if_neg (by omega)]
    subst hk
    rw [htake8, hdrop8]
  · obtain ⟨ch2, hrec⟩ := Source.readExactAux_ok (8 - k)
      ⟨(w0 ++ rest).drop k, ch.tail⟩ (8 - k)
      (Nat.le_refl _) (by dsimp only; rw [List.length_drop]; omega)
    dsimp only at hrec
    refine ⟨ch2, ?_⟩
    simp only [read_first_word, hr, hlen]
    rw [if_neg (by omega), if_pos (by omega)]
    rw [show (⟨(w0 ++ rest).drop k, ch.tail⟩ : Source).readExact (8 - k) =
      Source.readExactAux (8 - k) ⟨(w0 ++ rest).drop k, ch.tail⟩ (8 - k)
      from rfl, hrec]
    have h1 : (w0 ++ rest).take k ++ ((w0 ++ rest).drop k).take (8 - k) = w0 := by
      rw [← List.take_add, show k + (8 - k) = 8 by omega, htake8]
    have h2 : ((w0 ++ rest).drop k).drop (8 - k) = rest := by
      rw [List.drop_drop, show k + (8 - k) = 8 by omega, hdrop8]
    show Except.ok (some ((w0 ++ rest).take k ++ ((w0 ++ rest).drop k).take (8 - k),
      (⟨((w0 ++ rest).drop k).drop (8 - k), ch2⟩ : Source))) = _
    rw [h1, h2]

theorem read_first_word_empty (ch : List Nat) :
    read_first_word ⟨[], ch⟩ = .ok none := by
  cases ch <;> simp [read_first_word, Source.read]

theorem read_first_word_not_none (s : Source) (hne : s.data ≠ []) :
    read_first_word s ≠ .ok none := by
  obtain ⟨k, hr, hk8, hkd, hk1⟩ := Source.read_spec s 8
  have hk1 : 1 ≤ k := hk1 (by omega) hne
  have hlen : (s.data.take k).length = k := by
    rw [List.length_take]; omega
  simp only [read_first_word, hr, hlen]
  rw [if_neg (by omega)]
  by_cases hk : k < 8
  · rw [if_pos hk]
    cases hre : (⟨s.data.drop k, s.chunks.tail⟩ : Source).readExact (8 - k) with
    | error e => simp [hre]
    | ok p => obtain ⟨a, b⟩ := p; simp [hre]
  · rw [if_neg hk]
    simp

theorem read_first_word_truncated (s : Source) (hne : s.data ≠ [])
    (hlt : s.data.length < 8) : read_first_word s = .error .Truncated := by
  obtain ⟨k, hr, hk8, hkd, hk1⟩ := Source.read_spec s 8
  have hk1 : 1 ≤ k := hk1 (by omega) hne
  have hlen : (s.data.take k).length = k := by
    rw [List.length_take]; omega
  simp only [read_first_word, hr, hlen]
  rw [if_neg (by omega), if_pos (by omega)]
  rw [show (⟨s.data.drop k, s.chunks.tail⟩ : Source).readExact (8 - k) =
    Source.readExactAux (8 - k) ⟨s.data.drop k, s.chunks.tail⟩ (8 - k) from rfl]
  rw [Source.readExactAux_truncated (8 - k) ⟨s.data.drop k, s.chunks.tail⟩ (8 - k)
    (Nat.le_refl _) (by dsimp only; rw [List.length_drop]; omega)]

/-! ### Segment-table parsing lemmas -/

theorem parse_ok_bounds (buf : List Nat) (c l0 : Nat)
    (h : parse_segment_table_first buf = .ok (c, l0)) : 1 ≤ c ∧ c < 512 := by
  simp only [parse_segment_table_first] at h
  split at h
  · exact absurd h (by simp)
  · split at h
    · exact absurd h (by simp)
    · injection h with h
      injection h with h1 _
      omega

theorem push_segment_slices_length (k : Nat) : ∀ (buf : List Nat) (t0 : Nat),
    (push_segment_slices buf k t0).1.length = k := by
  induction k with
  | zero => intro buf t0; rfl
  | succ k ih =>
    intro buf t0
    simp only [push_segment_slices, List.length_cons]
    rw [ih]

theorem push_segment_slices_take (k : Nat) : ∀ (x y : List Nat) (t0 : Nat),
    4 * k ≤ x.length →
    push_segment_slices (x ++ y) k t0 = push_segment_slices x k t0 := by
  induction k with
  | zero => intro x y t0 _; rfl
  | succ k ih =>
    intro x y t0 hx
    simp only [push_segment_slices]
    rw [List.take_append_of_le_length (by omega),
      List.drop_append_of_le_length (by omega),
      ih (x.drop 4) y _ (by rw [List.length_drop]; omega)]

theorem push_segment_slices_encoded (ls : List Nat) : ∀ (extra : List Nat) (t0 : Nat),
    (∀ l ∈ ls, l < 4294967296) →
    push_segment_slices ((ls.map u32_to_le_bytes).flatten ++ extra) ls.length t0 =
      (expected_slices t0 ls, t0 + ls.sum) := by
  induction ls with
  | nil =>
    intro extra t0 _
    simp [push_segment_slices, expected_slices]
  | cons l ls ih =>
    intro extra t0 h
    have hl : l < 4294967296 := h l (by simp)
    simp only [List.map_cons, List.flatten_cons, List.length_cons, List.append_assoc]
    simp only [push_segment_slices]
    rw [List.take_append_of_le_length (by rw [u32_to_le_bytes_length]),
      List.take_of_length_le (by rw [u32_to_le_bytes_length]),
      List.drop_append_of_le_length (by rw [u32_to_le_bytes_length]),
      List.drop_of_length_le (by rw [u32_to_le_bytes_length])]
    rw [le_decode_u32_to_le_bytes, Nat.mod_eq_of_lt hl]
    rw [show ([] : List Nat) ++ ((ls.map u32_to_le_bytes).flatten ++ extra) =
      (ls.map u32_to_le_bytes).flatten ++ extra from rfl]
    rw [ih extra (t0 + l) (fun x hmem => h x (by simp [hmem]))]
    simp only [expected_slices, List.sum_cons]
    rw [Nat.add_assoc]

theorem u32_flatten_length (ls : List Nat) :
    ((ls.map u32_to_le_bytes).flatten).length = 4 * ls.length := by
  induction ls with
  | nil => rfl
  | cons l ls ih =>
    simp only [List.map_cons, List.flatten_cons, List.length_append,
      u32_to_le_bytes_length, ih, List.length_cons]
    omega

/-! ### Characterization of read_segment_table on well-formed input -/

theorem read_segment_table_spec (w0 rest tail ch : List Nat) (limit c l0 : Nat)
    (hw : w0.length = 8)
    (hp : parse_segment_table_first w0 = .ok (c, l0))
    (hr : rest.length = round_down_even c * 4) :
    ∃ ch2, read_segment_table ⟨w0 ++ (rest ++ tail), ch⟩ limit =
      (if limit < (push_segment_slices rest (c - 1) l0).2 then .error .MessageTooLarge
       else .ok (some ((push_segment_slices rest (c - 1) l0).2,
         (0, l0) :: (push_segment_slices rest (c - 1) l0).1, ⟨tail, ch2⟩))) := by
  obtain ⟨hc1, hc512⟩ := parse_ok_bounds w0 c l0 hp
  obtain ⟨ch1, h1⟩ := read_first_word_ok w0 (rest ++ tail) ch hw
  by_cases hc : 1 < c
  · obtain ⟨ch2, h2⟩ := Source.readExact_ok ⟨rest ++ tail, ch1⟩ rest.length
      (by dsimp only; rw [List.length_append]; omega)
    dsimp only at h2
    rw [List.take_left, List.drop_left] at h2
    have hrest : (if c < 4 then (⟨rest ++ tail, ch1⟩ : Source).readExact 8
                  else (⟨rest ++ tail, ch1⟩ : Source).readExact (round_down_even c * 4))
        = .ok (rest, ⟨tail, ch2⟩) := by
      by_cases hc4 : c < 4
      · rw [if_pos hc4,
          show (8 : Nat) = rest.length by simp only [round_down_even] at hr ⊢; omega, h2]
      · rw [if_neg hc4, show round_down_even c * 4 = rest.length from hr.symm, h2]
    refine ⟨ch2, ?_⟩
    simp only [read_segment_table, h1, hp]
    rw [if_pos hc, hrest]
  · have hc1' : c = 1 := by omega
    subst hc1'
    have hrnil : rest = [] := by
      apply List.eq_nil_of_length_eq_zero
      simp only [round_down_even] at hr
      omega
    subst hrnil
    refine ⟨ch1, ?_⟩
    simp only [List.nil_append] at h1 ⊢
    simp only [read_segment_table, h1, hp]
    rw [if_neg (by omega)]

/-! ### Offset invariants -/

theorem push_segment_slices_runs (k : Nat) : ∀ (buf : List Nat) (t0 : Nat),
    runs_from t0 (push_segment_slices buf k t0).1
      (push_segment_slices buf k t0).2 = true := by
  induction k with
  | zero =>
    intro buf t0
    simp [push_segment_slices, runs_from]
  | succ k ih =>
    intro buf t0
    simp only [push_segment_slices, runs_from, Bool.and_eq_true, decide_eq_true_eq]
    exact ⟨⟨by trivial, Nat.le_add_right _ _⟩, ih _ _⟩

theorem runs_from_le : ∀ (sl : List (Nat × Nat)) (start total : Nat),
    runs_from start sl total = true → start ≤ total := by
  intro sl
  induction sl with
  | nil =>
    intro start total h
    simp only [runs_from, decide_eq_true_eq] at h
    omega
  | cons p sl ih =>
    intro start total h
    obtain ⟨a, b⟩ := p
    simp only [runs_from, Bool.and_eq_true, decide_eq_true_eq] at h
    obtain ⟨⟨h1, h2⟩, h3⟩ := h
    have := ih b total h3
    omega

theorem runs_from_bounds : ∀ (sl : List (Nat × Nat)) (start total : Nat),
    runs_from start sl total = true → ∀ p ∈ sl, p.1 ≤ p.2 ∧ p.2 ≤ total := by
  intro sl
  induction sl with
  | nil =>
    intro start total _ p hp
    exact absurd hp (by simp)
  | cons q sl ih =>
    intro start total h p hp
    obtain ⟨a, b⟩ := q
    simp only [runs_from, Bool.and_eq_true, decide_eq_true_eq] at h
    obtain ⟨⟨h1, h2⟩, h3⟩ := h
    rcases List.mem_cons.mp hp with hp | hp
    · subst hp
      exact ⟨h2, runs_from_le sl b total h3⟩
    · exact ih b total h3 p hp

theorem read_segment_table_runs (s : Source) (limit total : Nat)
    (slices : List (Nat × Nat)) (s2 : Source)
    (h : read_segment_table s limit = .ok (some (total, slices, s2))) :
    runs_from 0 slices total = true := by
  simp only [read_segment_table] at h
  split at h
  · exact absurd h (by simp)
  · exact absurd h (by simp)
  · split at h
    · exact absurd h (by simp)
    · split at h
      · exact absurd h (by simp)
      · split at h
        · exact absurd h (by simp)
        · simp only [Except.ok.injEq, Option.some.injEq, Prod.mk.injEq] at h
          obtain ⟨htotal, hslices, _⟩ := h
          rw [← htotal, ← hslices]
          simp only [runs_from, Bool.and_eq_true, decide_eq_true_eq]
          exact ⟨⟨by trivial, Nat.zero_le _⟩, push_segment_slices_runs _ _ _⟩

theorem read_message_ok_inv (s : Source) (limit : Nat) (o : OwnedSegments)
    (h : read_message s limit = .ok (some o)) :
    ∃ total s2 bytes s3,
      read_segment_table s limit = .ok (some (total, o.segment_slices, s2)) ∧
      s2.readExact (total * 8) = .ok (bytes, s3) ∧
      o.owned_space = bytes_to_words bytes ∧
      o.owned_space.length = total := by
  simp only [read_message] at h
  cases h1 : read_segment_table s limit with
  | error e => rw [h1] at h; exact absurd h (by simp)
  | ok oo =>
    rw [h1] at h
    match oo with
    | none => exact absurd h (by simp)
    | some (total, slices, s2) =>
      simp only [read_segments] at h
      cases h2 : s2.readExact (total * 8) with
      | error e => rw [h2] at h; exact absurd h (by simp)
      | ok p =>
        obtain ⟨bytes, s3⟩ := p
        rw [h2] at h
        simp only [Except.ok.injEq, Option.some.injEq] at h
        subst h
        refine ⟨total, s2, bytes, s3, rfl, h2, rfl, ?_⟩
        exact bytes_to_words_length_mul total bytes
          (Source.readExact_length s2 (total * 8) bytes s3 h2)

theorem read_segments_chunks_irrelevant (data ch ch2 : List Nat) (total : Nat)
    (slices : List (Nat × Nat)) :
    read_segments ⟨data, ch⟩ total slices = read_segments ⟨data, ch2⟩ total slices := by
  by_cases h : total * 8 ≤ data.length
  · obtain ⟨c1, h1⟩ := Source.readExact_ok ⟨data, ch⟩ (total * 8) h
    obtain ⟨c2, h2⟩ := Source.readExact_ok ⟨data, ch2⟩ (total * 8) h
    dsimp only at h1 h2
    simp only [read_segments, h1, h2]
  · rw [read_segments, read_segments,
      Source.readExact_truncated ⟨data, ch⟩ _ (by dsimp only; omega),
      Source.readExact_truncated ⟨data, ch2⟩ _ (by dsimp only; omega)]

/-! ### Sink and write lemmas -/

theorem Sink.write_spec (k : Sink) (b : List Nat) :
    ∃ n, k.write b = (n, ⟨k.data ++ b.take n, k.chunks.tail⟩) ∧
      n ≤ b.length ∧ (b ≠ [] → 1 ≤ n) := by
  cases hch : k.chunks with
  | nil =>
    refine ⟨min b.length b.length, ?_, by omega, ?_⟩
    · simp only [Sink.write, hch, List.tail_nil]
    · intro hne
      have := List.length_pos.mpr hne
      omega
  | cons c ch =>
    refine ⟨min b.length (max c 1), ?_, by omega, ?_⟩
    · simp only [Sink.write, hch, List.tail_cons]
    · intro hne
      have := List.length_pos.mpr hne
      omega

theorem Sink.writeAllAux_data (fuel : Nat) : ∀ (k : Sink) (b : List Nat),
    b.length ≤ fuel → (Sink.writeAllAux fuel k b).data = k.data ++ b := by
  induction fuel with
  | zero =>
    intro k b hb
    have hnil : b = [] := List.eq_nil_of_length_eq_zero (by omega)
    subst hnil
    simp [Sink.writeAllAux]
  | succ fuel ih =>
    intro k b hb
    match b with
    | [] => simp [Sink.writeAllAux]
    | x :: b2 =>
      obtain ⟨n, hw, hnb, hn1⟩ := Sink.write_spec k (x :: b2)
      have hn1 : 1 ≤ n := hn1 (by simp)
      simp only [Sink.writeAllAux, hw]
      rw [ih _ _ (by rw [List.length_drop]; simp only [List.length_cons] at hnb hb ⊢; omega)]
      dsimp only
      rw [List.append_assoc, List.take_append_drop]

theorem Sink.write_all_data (k : Sink) (b : List Nat) :
    (k.write_all b).data = k.data ++ b :=
  Sink.writeAllAux_data b.length k b (Nat.le_refl _)

theorem write_segments_fold (segs : List (List Nat)) : ∀ k : Sink,
    (segs.foldl (fun k s => k.write_all (words_to_bytes s)) k).data =
      k.data ++ (segs.map words_to_bytes).flatten := by
  induction segs with
  | nil => intro k; simp
  | cons s segs ih =>
    intro k
    simp only [List.foldl_cons, List.map_cons, List.flatten_cons]
    rw [ih, Sink.write_all_data, List.append_assoc]

theorem write_message_data (k : Sink) (segs : List (List Nat)) :
    (write_message k segs).data =
      k.data ++ write_segment_table segs ++ (segs.map words_to_bytes).flatten := by
  simp only [write_message, write_segment_table]
  rw [write_segments_fold]
  by_cases h : 1 < segs.length
  · rw [if_pos h, if_pos h, Sink.write_all_data, Sink.write_all_data]
    simp [List.append_assoc]
  · rw [if_neg h, if_neg h, Sink.write_all_data]
    simp [List.append_assoc]

/-! ### Encoded-header lemmas -/

theorem segment_table_first_word_length (segs : List (List Nat)) :
    (segment_table_first_word segs).length = 8 := rfl

theorem parse_segment_table_first_encoded (segs : List (List Nat))
    (h0 : segs ≠ []) (h1 : segs.length ≤ 511)
    (h2 : (segs.headD []).length < 4294967296) :
    parse_segment_table_first (segment_table_first_word segs) =
      .ok (segs.length, (segs.headD []).length) := by
  have hcpos : 1 ≤ segs.length := List.length_pos.mpr h0
  simp only [segment_table_first_word, parse_segment_table_first]
  rw [List.take_append_of_le_length (by rw [u32_to_le_bytes_length]),
    List.take_of_length_le (by rw [u32_to_le_bytes_length]),
    List.drop_append_of_le_length (by rw [u32_to_le_bytes_length]),
    List.drop_of_length_le (by rw [u32_to_le_bytes_length]),
    List.nil_append,
    List.take_of_length_le (by rw [u32_to_le_bytes_length]),
    le_decode_u32_to_le_bytes, le_decode_u32_to_le_bytes,
    Nat.mod_eq_of_lt (show segs.length - 1 < 4294967296 by omega),
    show segs.length - 1 + 1 = segs.length by omega,
    Nat.mod_eq_of_lt (show segs.length < 4294967296 by omega),
    Nat.mod_eq_of_lt h2]
  rw [if_neg (by omega), if_neg (by omega)]

theorem map_u32_len (xs : List (List Nat)) :
    (xs.map List.length).map u32_to_le_bytes =
      xs.map (fun s => u32_to_le_bytes s.length) := by
  rw [List.map_map]
  rfl

theorem u32_flatten_length_gen (xs : List (List Nat)) :
    ((xs.map (fun s => u32_to_le_bytes s.length)).flatten).length = 4 * xs.length := by
  rw [← map_u32_len, u32_flatten_length, List.length_map]

theorem segment_table_rest_eq (segs : List (List Nat)) (h : 1 < segs.length) :
    segment_table_rest segs =
      ((segs.drop 1).map (fun s => u32_to_le_bytes s.length)).flatten ++
        (if segs.length % 2 = 0 then [0, 0, 0, 0] else []) := by
  simp only [segment_table_rest]
  by_cases h4 : segs.length < 4
  · rw [if_pos h4]
    by_cases h2 : segs.length = 2
    · rw [if_pos h2, if_pos (by omega)]
    · rw [if_neg h2, if_neg (by omega), List.append_nil]
  · rw [if_neg h4]
    by_cases h2 : segs.length % 2 = 0
    · rw [if_pos h2, if_pos h2]
    · rw [if_neg h2, if_neg h2, List.append_nil]

theorem segment_table_rest_length (segs : List (List Nat)) (h : 1 < segs.length) :
    (segment_table_rest segs).length = round_down_even segs.length * 4 := by
  rw [segment_table_rest_eq segs h, List.length_append, u32_flatten_length_gen,
    List.length_drop]
  simp only [round_down_even]
  by_cases h2 : segs.length % 2 = 0
  · rw [if_pos h2]
    simp only [List.length_cons, List.length_nil]
    omega
  · rw [if_neg h2]
    simp only [List.length_nil]
    omega

/-! ### Payload lemmas -/

theorem total_word_count_cons (s : List Nat) (segs : List (List Nat)) :
    total_word_count (s :: segs) = s.length + (segs.map List.length).sum := by
  simp [total_word_count]

theorem payload_length (segs : List (List Nat)) :
    ((segs.map words_to_bytes).flatten).length = 8 * total_word_count segs := by
  induction segs with
  | nil => rfl
  | cons s segs ih =>
    simp only [List.map_cons, List.flatten_cons, List.length_append,
      words_to_bytes_length, ih, total_word_count, List.sum_cons]
    simp only [total_word_count] at ih
    omega

theorem bytes_to_words_payload (segs : List (List Nat))
    (h : ∀ s ∈ segs, ∀ w ∈ s, w < 18446744073709551616) :
    bytes_to_words ((segs.map words_to_bytes).flatten) = segs.flatten := by
  induction segs with
  | nil => rfl
  | cons s segs ih =>
    simp only [List.map_cons, List.flatten_cons]
    rw [bytes_to_words_words_to_bytes s _ (h s (by simp))]
    rw [ih (fun t ht w hw => h t (by simp [ht]) w hw)]

theorem expected_slices_extract (segs : List (List Nat)) :
    ∀ (buf rest : List Nat) (start : Nat),
    buf.drop start = segs.flatten ++ rest →
    (expected_slices start (segs.map List.length)).map
      (fun p => rust_slice buf p.1 p.2) = segs := by
  induction segs with
  | nil => intro buf rest start _; rfl
  | cons s segs ih =>
    intro buf rest start h
    simp only [List.flatten_cons, List.append_assoc] at h
    simp only [List.map_cons, expected_slices]
    have hhead : rust_slice buf start (start + s.length) = s := by
      simp only [rust_slice]
      rw [show start + s.length - start = s.length by omega, h,
        List.take_left]
    have htail : buf.drop (start + s.length) = segs.flatten ++ rest := by
      have hcong := congrArg (List.drop s.length) h
      rw [List.drop_drop] at hcong
      rw [hcong, List.drop_left]
    rw [hhead, ih buf rest (start + s.length) htail]

/-! ### Composition helpers -/

theorem read_segment_table_encoded (segs : List (List Nat)) (tail ch : List Nat)
    (limit : Nat) (h0 : segs ≠ []) (h1 : segs.length ≤ 511)
    (h2 : ∀ s ∈ segs, s.length < 4294967296) :
    ∃ ch2, read_segment_table ⟨write_segment_table segs ++ tail, ch⟩ limit =
      (if limit < total_word_count segs then .error .MessageTooLarge
       else .ok (some (total_word_count segs,
         expected_slices 0 (segs.map List.length), ⟨tail, ch2⟩))) := by
  obtain ⟨s0, stail, rfl⟩ := List.exists_cons_of_ne_nil h0
  have hp : parse_segment_table_first (segment_table_first_word (s0 :: stail)) =
      .ok ((s0 :: stail).length, s0.length) :=
    parse_segment_table_first_encoded _ h0 h1 (h2 s0 (by simp))
  have hr : (if 1 < (s0 :: stail).length then segment_table_rest (s0 :: stail)
      else []).length = round_down_even (s0 :: stail).length * 4 := by
    by_cases hc : 1 < (s0 :: stail).length
    · rw [if_pos hc, segment_table_rest_length _ hc]
    · rw [if_neg hc]
      have hone : (s0 :: stail).length = 1 := by
        simp only [List.length_cons] at hc ⊢
        omega
      rw [hone]
      rfl
  obtain ⟨ch2, hspec⟩ := read_segment_table_spec
    (segment_table_first_word (s0 :: stail))
    (if 1 < (s0 :: stail).length then segment_table_rest (s0 :: stail) else [])
    tail ch limit (s0 :: stail).length s0.length
    (segment_table_first_word_length _) hp hr
  have hpush : push_segment_slices
      (if 1 < (s0 :: stail).length then segment_table_rest (s0 :: stail) else [])
      ((s0 :: stail).length - 1) s0.length =
      (expected_slices s0.length (stail.map List.length),
        s0.length + (stail.map List.length).sum) := by
    by_cases hc : 1 < (s0 :: stail).length
    · rw [if_pos hc, segment_table_rest_eq _ hc,
        show (s0 :: stail).drop 1 = stail from rfl, ← map_u32_len,
        show (s0 :: stail).length - 1 = (stail.map List.length).length by simp]
      exact push_segment_slices_encoded (stail.map List.length) _ s0.length
        (by
          intro l hl
          simp only [List.mem_map] at hl
          obtain ⟨t, ht, rfl⟩ := hl
          exact h2 t (by simp [ht]))
    · have hnil : stail = [] := by
        apply List.eq_nil_of_length_eq_zero
        simp only [List.length_cons] at hc
        omega
      subst hnil
      rfl
  refine ⟨ch2, ?_⟩
  rw [show write_segment_table (s0 :: stail) ++ tail =
    segment_table_first_word (s0 :: stail) ++
      ((if 1 < (s0 :: stail).length then segment_table_rest (s0 :: stail) else []) ++ tail)
    from by rw [write_segment_table, List.append_assoc]]
  rw [hspec, hpush]
  rw [total_word_count_cons]
  simp only [List.map_cons, expected_slices, Nat.zero_add]

theorem read_segment_table_parse_error (w0 rest ch : List Nat) (limit : Nat) (e : Error)
    (hw : w0.length = 8)
    (hp : parse_segment_table_first w0 = .error e) :
    read_segment_table ⟨w0 ++ rest, ch⟩ limit = .error e := by
  obtain ⟨ch1, h1⟩ := read_first_word_ok w0 rest ch hw
  simp only [read_segment_table, h1, hp]

theorem read_segment_table_none_iff (s : Source) (limit : Nat) :
    read_segment_table s limit = .ok none ↔ s.data = [] := by
  constructor
  · intro h
    by_contra hne
    have hfw := read_first_word_not_none s hne
    simp only [read_segment_table] at h
    split at h
    · exact absurd h (by simp)
    · exact hfw (by assumption)
    · split at h
      · exact absurd h (by simp)
      · split at h
        · exact absurd h (by simp)
        · split at h
          · exact absurd h (by simp)
          · exact absurd h (by simp)
  · intro h
    have hs : s = ⟨[], s.chunks⟩ := by
      cases s
      simp_all
    rw [hs]
    simp only [read_segment_table, read_first_word_empty]

theorem read_message_none_iff (s : Source) (limit : Nat) :
    read_message s limit = .ok none ↔ s.data = [] := by
  rw [← read_segment_table_none_iff s limit]
  constructor
  · intro h
    simp only [read_message] at h
    split at h
    · exact absurd h (by simp)
    · assumption
    · split at h
      · exact absurd h (by simp)
      · exact absurd h (by simp)
  · intro h
    simp only [read_message, h]

theorem read_message_truncated_header (s : Source) (limit : Nat)
    (hne : s.data ≠ []) (hlt : s.data.length < 8) :
    read_message s limit = .error .Truncated := by
  have h := read_first_word_truncated s hne hlt
  simp only [read_message, read_segment_table, h]

/-! ### Claim theorems -/

/-- C1 (amended): for every non-empty list of segments with at most 511
segments, each segment length representable as u32, each word a real 64-bit
word, and total declared word count within the traversal limit of the Reader
Options, writing the segments with write_message and decoding the produced
bytes with read_message succeeds and yields exactly the same segments, with
contents and ordering preserved, regardless of how the async I/O primitive
splits the bytes into partial reads or writes (the chunk schedules wch and
rch are arbitrary). -/
theorem c1_round_trip (segs : List (List Nat)) (wch rch : List Nat) (limit : Nat)
    (h0 : segs ≠ [])
    (h1 : segs.length ≤ 511)
    (h2 : ∀ s ∈ segs, s.length < 4294967296)
    (h3 : ∀ s ∈ segs, ∀ w ∈ s, w < 18446744073709551616)
    (h4 : total_word_count segs ≤ limit) :
    ∃ o : OwnedSegments,
      read_message ⟨(write_message ⟨[], wch⟩ segs).data, rch⟩ limit = .ok (some o) ∧
      o.segments_list = segs := by
  have hdata : (write_message ⟨[], wch⟩ segs).data =
      write_segment_table segs ++ (segs.map words_to_bytes).flatten := by
    rw [write_message_data]
    rfl
  obtain ⟨ch2, hrst⟩ := read_segment_table_encoded segs
    ((segs.map words_to_bytes).flatten) rch limit h0 h1 h2
  rw [if_neg (by omega)] at hrst
  refine ⟨⟨expected_slices 0 (segs.map List.length), segs.flatten⟩, ?_, ?_⟩
  · rw [hdata]
    simp only [read_message, hrst]
    have hlenp : ((segs.map words_to_bytes).flatten).length =
      8 * total_word_count segs := payload_length segs
    obtain ⟨ch3, hre⟩ := Source.readExact_ok
      ⟨(segs.map words_to_bytes).flatten, ch2⟩ (total_word_count segs * 8)
      (by dsimp only; omega)
    dsimp only at hre
    rw [List.take_of_length_le (by omega)] at hre
    simp only [read_segments, hre]
    rw [bytes_to_words_payload segs h3]
  · simp only [OwnedSegments.segments_list]
    exact expected_slices_extract segs segs.flatten [] 0 (by simp)

set_option maxRecDepth 4000 in
/-- C1, counterexample to the claim as stated: 512 zero-length segments form
a non-empty segment list that write_message happily encodes, but
read_message rejects the result with TooManySegments, so the unconditional
round trip of the claim fails. -/
theorem c1_counterexample :
    ¬ ∃ o : OwnedSegments,
      read_message ⟨(write_message ⟨[], []⟩ (List.replicate 512 ([] : List Nat))).data, []⟩
        8388608 = .ok (some o) ∧
      o.segments_list = List.replicate 512 [] := by
  intro hex
  obtain ⟨o, h, _⟩ := hex
  have hw : (segment_table_first_word (List.replicate 512 ([] : List Nat))).length = 8 :=
    segment_table_first_word_length _
  have hp : parse_segment_table_first
      (segment_table_first_word (List.replicate 512 ([] : List Nat))) =
      .error .TooManySegments := rfl
  have hdata : (write_message ⟨[], []⟩ (List.replicate 512 ([] : List Nat))).data =
      segment_table_first_word (List.replicate 512 ([] : List Nat)) ++
        (segment_table_rest (List.replicate 512 ([] : List Nat)) ++
          (((List.replicate 512 ([] : List Nat)).map words_to_bytes).flatten)) := by
    rw [write_message_data, write_segment_table, if_pos (by simp)]
    simp [List.append_assoc]
  have herr : read_message ⟨(write_message ⟨[], []⟩
      (List.replicate 512 ([] : List Nat))).data, []⟩ 8388608 =
      .error .TooManySegments := by
    rw [hdata]
    simp only [read_message,
      read_segment_table_parse_error _ _ [] 8388608 .TooManySegments hw hp]
  rw [herr] at h
  exact Except.noConfusion h

/-- C1 witness. -/
theorem c1_round_trip_witness :
    ∃ o : OwnedSegments,
      read_message ⟨(write_message ⟨[], [3]⟩ [[1], [2]]).data, [5]⟩ 8388608 =
        .ok (some o) ∧
      o.segments_list = [[1], [2]] :=
  c1_round_trip [[1], [2]] [3] [5] 8388608 (by decide) (by decide) (by decide)
    (by decide) (by decide)

/-- C2: for a well-formed encoded header (any segment list with 1 to 511
segments and u32-representable lengths) followed by arbitrary further bytes,
decoding the segment table fails with MessageTooLarge exactly when the total
declared word count strictly exceeds the traversal limit of the Reader
Options; and in that case the whole read_message fails the same way even
when no payload bytes are present at all (extra is arbitrary, including []),
so the failure happens before any payload of the declared size is read or
allocated. -/
theorem c2_message_too_large (segs : List (List Nat)) (extra ch : List Nat)
    (limit : Nat) (h0 : segs ≠ []) (h1 : segs.length ≤ 511)
    (h2 : ∀ s ∈ segs, s.length < 4294967296) :
    (read_segment_table ⟨write_segment_table segs ++ extra, ch⟩ limit =
        .error .MessageTooLarge ↔ limit < total_word_count segs) ∧
    (limit < total_word_count segs →
      read_message ⟨write_segment_table segs ++ extra, ch⟩ limit =
        .error .MessageTooLarge) := by
  obtain ⟨ch2, hrst⟩ := read_segment_table_encoded segs extra ch limit h0 h1 h2
  refine ⟨⟨?_, ?_⟩, ?_⟩
  · intro h
    by_contra hnot
    rw [if_neg hnot] at hrst
    rw [hrst] at h
    exact Except.noConfusion h
  · intro h
    rw [if_pos h] at hrst
    exact hrst
  · intro h
    rw [if_pos h] at hrst
    simp only [read_message, hrst]

/-- C2 witness: a single-segment header declaring 2 words against a
traversal limit of 1 fails with MessageTooLarge, with no payload present. -/
theorem c2_message_too_large_witness :
    read_segment_table ⟨write_segment_table [[0, 0]] ++ [], []⟩ 1 =
      .error .MessageTooLarge :=
  (c2_message_too_large [[0, 0]] [] [] 1 (by decide) (by decide) (by decide)).1.mpr
    (by decide)

/-- C3: decoding the first header word fails with TooManySegments exactly
when the computed segment count (the raw little-endian u32 of bytes 0-3,
plus one with 32-bit wrapping) is at least 512; in particular a first word
with raw count field 0x00000200 (segment count 513) fails this way. -/
theorem c3_too_many_segments :
    (∀ buf : List Nat,
      parse_segment_table_first buf = .error .TooManySegments ↔
        512 ≤ (le_decode (buf.take 4) + 1) % 4294967296) ∧
    parse_segment_table_first [0, 2, 0, 0, 0, 0, 0, 0] = .error .TooManySegments ∧
    (le_decode [0, 2, 0, 0] + 1) % 4294967296 = 513 := by
  refine ⟨?_, rfl, rfl⟩
  intro buf
  simp only [parse_segment_table_first]
  constructor
  · intro h
    by_contra hnot
    rw [if_neg hnot] at h
    split at h
    · exact absurd h (by simp)
    · exact absurd h (by simp)
  · intro h
    rw [if_pos h]

theorem cons4_of_length (b : List Nat) (h : 4 ≤ b.length) :
    ∃ b0 b1 b2 b3 rest, b = b0 :: b1 :: b2 :: b3 :: rest := by
  rcases b with _ | ⟨b0, _ | ⟨b1, _ | ⟨b2, _ | ⟨b3, rest⟩⟩⟩⟩
  all_goals simp only [List.length_nil, List.length_cons] at h
  all_goals first
    | omega
    | exact ⟨b0, b1, b2, b3, rest, rfl⟩

/-- C4: decoding the first header word fails with TooFewSegments exactly
when the computed segment count is 0, which (for real byte input) happens
exactly when the raw count field is 0xFFFFFFFF, so that the wrapping plus
one overflows to 0; header bytes FF FF FF FF followed by any trailing bytes
fail this way. -/
theorem c4_too_few_segments :
    (∀ buf : List Nat,
      parse_segment_table_first buf = .error .TooFewSegments ↔
        (le_decode (buf.take 4) + 1) % 4294967296 = 0) ∧
    (∀ buf : List Nat, 4 ≤ buf.length → (∀ b ∈ buf.take 4, b < 256) →
      ((le_decode (buf.take 4) + 1) % 4294967296 = 0 ↔
        buf.take 4 = [255, 255, 255, 255])) ∧
    (∀ tail : List Nat,
      parse_segment_table_first ([255, 255, 255, 255] ++ tail) =
        .error .TooFewSegments) := by
  have hA : ∀ buf : List Nat,
      parse_segment_table_first buf = .error .TooFewSegments ↔
        (le_decode (buf.take 4) + 1) % 4294967296 = 0 := by
    intro buf
    simp only [parse_segment_table_first]
    constructor
    · intro h
      split at h
      · exact absurd h (by simp)
      · split at h
        · assumption
        · exact absurd h (by simp)
    · intro h
      rw [if_neg (by omega), if_pos h]
  refine ⟨hA, ?_, ?_⟩
  · intro buf hlen hb
    obtain ⟨b0, b1, b2, b3, rest, rfl⟩ := cons4_of_length buf hlen
    have ht : (b0 :: b1 :: b2 :: b3 :: rest).take 4 = [b0, b1, b2, b3] := rfl
    rw [ht] at hb ⊢
    have h0 := hb b0 (by simp)
    have h1 := hb b1 (by simp)
    have h2 := hb b2 (by simp)
    have h3 := hb b3 (by simp)
    simp only [le_decode, List.foldr]
    constructor
    · intro h
      have : b0 = 255 ∧ b1 = 255 ∧ b2 = 255 ∧ b3 = 255 := by omega
      simp [this.1, this.2.1, this.2.2.1, this.2.2.2]
    · intro h
      simp only [List.cons.injEq, and_true] at h
      obtain ⟨e0, e1, e2, e3⟩ := h
      subst e0; subst e1; subst e2; subst e3
      rfl
  · intro tail
    rw [hA, List.take_append_of_le_length (by simp)]
    decide

/-- C4 witness. -/
theorem c4_too_few_segments_witness :
    parse_segment_table_first ([255, 255, 255, 255] ++ [7, 7, 7, 7]) =
      .error .TooFewSegments ∧
    ((le_decode ([255, 255, 255, 255, 7, 7, 7, 7].take 4) + 1) % 4294967296 = 0 ↔
      [255, 255, 255, 255, 7, 7, 7, 7].take 4 = [255, 255, 255, 255]) :=
  ⟨c4_too_few_segments.2.2 [7, 7, 7, 7],
   c4_too_few_segments.2.1 [255, 255, 255, 255, 7, 7, 7, 7] (by decide) (by decide)⟩

/-- C5: read_message reports a clean end of stream (success value none)
exactly when the very first read attempt delivers 0 bytes; and when the
first attempt delivers between 1 and 7 bytes but the source holds fewer
than 8 bytes in total, completing the first header word fails with a
truncation error, never with a clean end of stream. -/
theorem c5_clean_end_of_stream (s : Source) (limit : Nat) :
    (read_message s limit = .ok none ↔ (s.read 8).1 = []) ∧
    ((s.read 8).1 ≠ [] → s.data.length < 8 →
      read_message s limit = .error .Truncated) := by
  obtain ⟨k, hr, hk8, hkd, hk1⟩ := Source.read_spec s 8
  have hread1 : (s.read 8).1 = s.data.take k := by rw [hr]
  have hiff : (s.read 8).1 = [] ↔ s.data = [] := by
    rw [hread1]
    constructor
    · intro h
      by_contra hne
      have hk1 := hk1 (by omega) hne
      have hlen : (s.data.take k).length = k := by
        rw [List.length_take]; omega
      rw [h] at hlen
      simp only [List.length_nil] at hlen
      omega
    · intro h
      rw [h]
      simp
  constructor
  · rw [read_message_none_iff, hiff]
  · intro h1 h2
    exact read_message_truncated_header s limit (fun hd => h1 (hiff.mpr hd)) h2

/-- C5 witness: a source holding exactly 4 bytes fails with truncation,
and an empty source succeeds with no message. -/
theorem c5_clean_end_of_stream_witness :
    read_message ⟨[1, 2, 3, 4], []⟩ 100 = .error .Truncated ∧
    read_message ⟨[], [2]⟩ 100 = .ok none :=
  ⟨(c5_clean_end_of_stream ⟨[1, 2, 3, 4], []⟩ 100).2 (by decide) (by decide),
   (c5_clean_end_of_stream ⟨[], [2]⟩ 100).1.mpr (by decide)⟩

/-- C6, counterexample to the claim as stated: for a header declaring
segment_count = 3 (first word 02 00 00 00 | 00 00 00 00), the reader reads
8 further header bytes, i.e. 2 thirty-two-bit words (segment_count rounded
down to even), and succeeds consuming the 16-byte source completely; the
formula of the claim, (segment_count rounded up to even) minus 1 = 3 words
= 12 bytes, does not match the 8 bytes actually read. -/
theorem c6_counterexample :
    read_segment_table ⟨[2,0,0,0, 0,0,0,0] ++ [0,0,0,0, 0,0,0,0], []⟩ 100 =
      .ok (some (0, [(0, 0), (0, 0), (0, 0)], ⟨[], []⟩)) ∧
    ((3 + 1) / 2 * 2 - 1) * 4 ≠ 16 - 8 := ⟨rfl, by decide⟩

/-- C6 (amended): for every header whose first word decodes to
segment_count c with c > 1, after the first 8-byte word the reader consumes
as one read-to-completion exactly (c rounded down to even) further
little-endian 32-bit words of header, i.e. round_down_even c * 4 bytes
(leaving the following bytes untouched in the source), and from them
decodes the remaining c - 1 segment lengths. -/
theorem c6_header_rest_amended (w0 rest tail ch : List Nat) (limit c l0 : Nat)
    (hw : w0.length = 8)
    (hp : parse_segment_table_first w0 = .ok (c, l0))
    (hc : 1 < c)
    (hr : rest.length = round_down_even c * 4)
    (hlim : (push_segment_slices rest (c - 1) l0).2 ≤ limit) :
    ∃ ch2, read_segment_table ⟨w0 ++ (rest ++ tail), ch⟩ limit =
      .ok (some ((push_segment_slices rest (c - 1) l0).2,
        (0, l0) :: (push_segment_slices rest (c - 1) l0).1, ⟨tail, ch2⟩)) ∧
      (push_segment_slices rest (c - 1) l0).1.length = c - 1 := by
  obtain ⟨ch2, hspec⟩ := read_segment_table_spec w0 rest tail ch limit c l0 hw hp hr
  rw [if_neg (by omega)] at hspec
  exact ⟨ch2, hspec, push_segment_slices_length _ _ _⟩

/-- C6 witness: a two-segment header (first word 01 00 00 00 | 05 00 00 00)
followed by the 8 remaining header bytes 07 00 00 00 | 00 00 00 00. -/
theorem c6_header_rest_witness :
    ∃ ch2, read_segment_table
        ⟨[1,0,0,0, 5,0,0,0] ++ ([7,0,0,0, 0,0,0,0] ++ []), []⟩ 100 =
      .ok (some ((push_segment_slices [7,0,0,0, 0,0,0,0] (2 - 1) 5).2,
        (0, 5) :: (push_segment_slices [7,0,0,0, 0,0,0,0] (2 - 1) 5).1, ⟨[], ch2⟩)) ∧
      (push_segment_slices [7,0,0,0, 0,0,0,0] (2 - 1) 5).1.length = 2 - 1 :=
  c6_header_rest_amended [1,0,0,0, 5,0,0,0] [7,0,0,0, 0,0,0,0] [] [] 100 2 5
    rfl rfl (by decide) (by decide) (by decide)

/-- C7: encoding the segment table for a non-empty segment list produces
the first word holding count minus one and the first segment length as
little-endian u32 values; for more than one segment, a run of the
remaining lengths as little-endian u32 values, followed by one zero u32
padding word exactly when the count is even; a single-segment header is
exactly the first word; and the whole header is a whole number of 8-byte
words. -/
theorem c7_write_segment_table (segs : List (List Nat)) (h : segs ≠ []) :
    write_segment_table segs =
      (u32_to_le_bytes (segs.length - 1) ++ u32_to_le_bytes (segs.headD []).length) ++
        (if 1 < segs.length then
          ((segs.drop 1).map (fun s => u32_to_le_bytes s.length)).flatten ++
            (if segs.length % 2 = 0 then [0, 0, 0, 0] else [])
         else []) ∧
    (write_segment_table segs).length % 8 = 0 := by
  have hpos : 1 ≤ segs.length := List.length_pos.mpr h
  constructor
  · rw [write_segment_table, segment_table_first_word]
    by_cases hc : 1 < segs.length
    · rw [if_pos hc, if_pos hc, segment_table_rest_eq segs hc]
    · rw [if_neg hc, if_neg hc]
  · rw [write_segment_table, List.length_append, segment_table_first_word_length]
    by_cases hc : 1 < segs.length
    · rw [if_pos hc, segment_table_rest_length segs hc]
      simp only [round_down_even]
      omega
    · rw [if_neg hc]
      rfl

/-- C7 witness: encoding lengths {1, 1} produces exactly the sixteen bytes
01 00 00 00 01 00 00 00 01 00 00 00 00 00 00 00, and a single segment of
one word produces exactly one header word (0, 1). -/
theorem c7_write_segment_table_witness :
    write_segment_table [[0], [0]] = [1,0,0,0, 1,0,0,0, 1,0,0,0, 0,0,0,0] ∧
    write_segment_table [[0]] = [0,0,0,0, 1,0,0,0] :=
  ⟨((c7_write_segment_table [[0], [0]] (by decide)).1).trans (by decide),
   ((c7_write_segment_table [[0]] (by decide)).1).trans (by decide)⟩

/-- C8: for every successfully decoded segment table, the offset ranges
are computed by running total: segment 0 starts at offset 0, each range is
non-decreasing, each subsequent start equals the previous end, and the
final end equals total_words (which for a successful read_message equals
the word length of the allocated buffer). -/
theorem c8_offset_invariants :
    (∀ (s : Source) (limit total : Nat) (slices : List (Nat × Nat)) (s2 : Source),
      read_segment_table s limit = .ok (some (total, slices, s2)) →
      runs_from 0 slices total = true) ∧
    (∀ (s : Source) (limit : Nat) (o : OwnedSegments),
      read_message s limit = .ok (some o) →
      runs_from 0 o.segment_slices o.owned_space.length = true) := by
  constructor
  · intro s limit total slices s2 h
    exact read_segment_table_runs s limit total slices s2 h
  · intro s limit o h
    obtain ⟨total, s2, bytes, s3, hrst, _, _, hlen⟩ := read_message_ok_inv s limit o h
    rw [hlen]
    exact read_segment_table_runs s limit total o.segment_slices s2 hrst

/-- C8 witness: the segment-table bytes declaring lengths 77, 23, 1, 99
decode to ranges (0,77), (77,100), (100,101), (101,200) with 200 total
words, and these ranges satisfy the running-total invariant. -/
theorem c8_offset_invariants_witness :
    read_segment_table
      ⟨[3,0,0,0, 77,0,0,0, 23,0,0,0, 1,0,0,0, 99,0,0,0, 0,0,0,0], []⟩ 8388608 =
      .ok (some (200, [(0,77), (77,100), (100,101), (101,200)], ⟨[], []⟩)) ∧
    runs_from 0 [(0,77), (77,100), (100,101), (101,200)] 200 = true :=
  ⟨rfl, c8_offset_invariants.1
    ⟨[3,0,0,0, 77,0,0,0, 23,0,0,0, 1,0,0,0, 99,0,0,0, 0,0,0,0], []⟩ 8388608 200
    [(0,77), (77,100), (100,101), (101,200)] ⟨[], []⟩ rfl⟩

/-- C9: for every OwnedSegments produced by a successful read_message,
get_segment id returns some slice exactly when id is below the number of
decoded segments, the slice being the words of the id-th range of the
owned buffer, whose bounds lie inside the buffer (so the Rust slice
indexing cannot panic); and get_segment returns none for every id at or
beyond the number of segments. -/
theorem c9_get_segment (s : Source) (limit : Nat) (o : OwnedSegments)
    (h : read_message s limit = .ok (some o)) (id : Nat) :
    (id < o.segment_slices.length →
      o.get_segment id =
        some (rust_slice o.owned_space (o.segment_slices.getD id (0, 0)).1
          (o.segment_slices.getD id (0, 0)).2) ∧
      (o.segment_slices.getD id (0, 0)).1 ≤ (o.segment_slices.getD id (0, 0)).2 ∧
      (o.segment_slices.getD id (0, 0)).2 ≤ o.owned_space.length) ∧
    (o.segment_slices.length ≤ id → o.get_segment id = none) := by
  obtain ⟨total, s2, bytes, s3, hrst, hre, hown, hlen⟩ := read_message_ok_inv s limit o h
  have hruns := read_segment_table_runs s limit total o.segment_slices s2 hrst
  constructor
  · intro hid
    have hmem : o.segment_slices.getD id (0, 0) ∈ o.segment_slices := by
      rw [List.getD_eq_getElem _ _ hid]
      exact List.getElem_mem hid
    have hb := runs_from_bounds o.segment_slices 0 total hruns _ hmem
    refine ⟨?_, hb.1, by omega⟩
    simp only [OwnedSegments.get_segment, if_pos hid]
  · intro hid
    have hnot : ¬ id < o.segment_slices.length := by omega
    simp only [OwnedSegments.get_segment, if_neg hnot]

/-- C9 witness: a decoded two-segment message answers get_segment 0 with
the first segment and get_segment 2 with none. -/
theorem c9_get_segment_witness :
    (⟨[(0,1), (1,2)], [1, 2]⟩ : OwnedSegments).get_segment 0 = some [1] ∧
    (⟨[(0,1), (1,2)], [1, 2]⟩ : OwnedSegments).get_segment 2 = none := by
  have h : read_message ⟨[1,0,0,0, 1,0,0,0] ++ [1,0,0,0, 0,0,0,0] ++
      ([1,0,0,0,0,0,0,0] ++ [2,0,0,0,0,0,0,0]), []⟩ 8388608 =
      .ok (some ⟨[(0,1), (1,2)], [1, 2]⟩) := rfl
  have h9 := c9_get_segment _ 8388608 _ h
  exact ⟨(((h9 0).1 (by decide)).1).trans (by decide), (h9 2).2 (by decide)⟩

/-- C10: when the decoded segment_count is even, the header carries a
trailing padding u32; the decoder consumes it but never inspects its value:
two byte streams that differ only in the four padding bytes produce
identical read_message results. -/
theorem c10_padding_ignored (w0 entries p1 p2 tail ch : List Nat)
    (limit c l0 : Nat)
    (hw : w0.length = 8)
    (hp : parse_segment_table_first w0 = .ok (c, l0))
    (hc : 1 < c) (hev : c % 2 = 0)
    (he : entries.length = 4 * (c - 1))
    (hp1 : p1.length = 4) (hp2 : p2.length = 4) :
    read_message ⟨w0 ++ (entries ++ p1 ++ tail), ch⟩ limit =
      read_message ⟨w0 ++ (entries ++ p2 ++ tail), ch⟩ limit := by
  have hr1 : (entries ++ p1).length = round_down_even c * 4 := by
    rw [List.length_append, he, hp1]
    simp only [round_down_even]
    omega
  have hr2 : (entries ++ p2).length = round_down_even c * 4 := by
    rw [List.length_append, he, hp2]
    simp only [round_down_even]
    omega
  obtain ⟨chA, hA⟩ := read_segment_table_spec w0 (entries ++ p1) tail ch limit c l0 hw hp hr1
  obtain ⟨chB, hB⟩ := read_segment_table_spec w0 (entries ++ p2) tail ch limit c l0 hw hp hr2
  have hq1 : push_segment_slices (entries ++ p1) (c - 1) l0 =
      push_segment_slices entries (c - 1) l0 :=
    push_segment_slices_take (c - 1) entries p1 l0 (by omega)
  have hq2 : push_segment_slices (entries ++ p2) (c - 1) l0 =
      push_segment_slices entries (c - 1) l0 :=
    push_segment_slices_take (c - 1) entries p2 l0 (by omega)
  rw [hq1] at hA
  rw [hq2] at hB
  by_cases hlim : limit < (push_segment_slices entries (c - 1) l0).2
  · rw [if_pos hlim] at hA hB
    rw [show w0 ++ (entries ++ p1 ++ tail) = w0 ++ ((entries ++ p1) ++ tail) from rfl,
      show w0 ++ (entries ++ p2 ++ tail) = w0 ++ ((entries ++ p2) ++ tail) from rfl]
    simp only [read_message, hA, hB]
  · rw [if_neg hlim] at hA hB
    rw [show w0 ++ (entries ++ p1 ++ tail) = w0 ++ ((entries ++ p1) ++ tail) from rfl,
      show w0 ++ (entries ++ p2 ++ tail) = w0 ++ ((entries ++ p2) ++ tail) from rfl]
    simp only [read_message, hA, hB]
    rw [read_segments_chunks_irrelevant tail chA chB
      (push_segment_slices entries (c - 1) l0).2
      ((0, l0) :: (push_segment_slices entries (c - 1) l0).1)]

/-- C10 witness: a two-segment header with nonzero padding bytes 09 09 09 09
decodes identically to the same header with zero padding, and the nonzero
padding is accepted (decoding succeeds). -/
theorem c10_padding_ignored_witness :
    read_message ⟨[1,0,0,0, 1,0,0,0] ++ ([1,0,0,0] ++ [9,9,9,9] ++
      ([1,0,0,0,0,0,0,0] ++ [2,0,0,0,0,0,0,0])), []⟩ 8388608 =
      read_message ⟨[1,0,0,0, 1,0,0,0] ++ ([1,0,0,0] ++ [0,0,0,0] ++
        ([1,0,0,0,0,0,0,0] ++ [2,0,0,0,0,0,0,0])), []⟩ 8388608 ∧
    read_message ⟨[1,0,0,0, 1,0,0,0] ++ ([1,0,0,0] ++ [9,9,9,9] ++
      ([1,0,0,0,0,0,0,0] ++ [2,0,0,0,0,0,0,0])), []⟩ 8388608 =
      .ok (some ⟨[(0,1), (1,2)], [1, 2]⟩) :=
  ⟨c10_padding_ignored [1,0,0,0, 1,0,0,0] [1,0,0,0] [9,9,9,9] [0,0,0,0]
      ([1,0,0,0,0,0,0,0] ++ [2,0,0,0,0,0,0,0]) [] 8388608 2 1
      rfl rfl (by decide) (by decide) (by decide) (by decide) (by decide),
   rfl⟩
